import Mathlib

/-!
Verification of the entropy measures of `skmob/measures/individual.py`:
the real-entropy estimator `_true_entropy` with its helper `_stringify`,
the random-entropy estimator `_random_entropy_individual`, and the
uncorrelated-entropy estimator `_uncorrelated_entropy_individual`.

A location symbol is modelled as the tuple of textual field forms that
`_stringify` sees: `list(map(str, r))` for a record `r`, i.e. a list of
character lists.  Floating-point values are modelled over `ℝ` (and over
`EReal` where `np.log2(0) = -inf` matters); the integral accumulator
`sum_lambda` is exact, so the model is faithful for the entropy formulas.
-/

namespace skmob

/-- A location symbol as the entropy code sees it: the list of per-field
textual forms (`str(field)` for each field of a `(lat, lng)` record). -/
abbrev Symbol : Type := List (List Char)

/-- The size of one `groupby([lat, lng])` group: the number of occurrences of
the symbol `x` in `traj`.  The `BEq` instance is pinned to the one derived
from decidable equality of symbols. -/
def groupCount (traj : List Symbol) (x : Symbol) : ℕ :=
  @List.count Symbol instBEqOfDecidableEq x traj

/-- Python `sep.join(parts)` for a one-character separator `sep`. -/
def joinSep (sep : Char) : List (List Char) → List Char
  | [] => []
  | [x] => x
  | x :: y :: rest => x ++ sep :: joinSep sep (y :: rest)

/-- Source `_stringify(seq)`:
`'|'.join(['_'.join(list(map(str, r))) for r in seq])`. -/
def _stringify (seq : List Symbol) : List Char :=
  joinSep '|' (seq.map (joinSep '_'))

/-- Python `sub in s` on strings: contiguous substring search. -/
def strContains (sub s : List Char) : Bool := decide (sub <:+: s)

/-- The `while` loop body of `_true_entropy` for one scan position `i`.
Entered with candidate length `j`, it tests
`_stringify(sequence[i:i+j]) in strSeq`; on a hit it increments `j` and, when
`i + j` has then reached `n`, increments once more (the "EOF character" case)
and stops; on a miss it stops and records `j`.  `fuel` bounds the recursion
and is chosen large enough (`n`) to never run out on the scanned positions. -/
def scanStep (sequence : List Symbol) (strSeq : List Char) (i n : Nat) :
    Nat → Nat → Nat
  | 0, j => j
  | fuel + 1, j =>
    if strContains (_stringify ((sequence.drop i).take j)) strSeq then
      if i + (j + 1) = n then j + 2
      else scanStep sequence strSeq i n fuel (j + 1)
    else j

/-- The value `j` that the scan of `_true_entropy` adds to `sum_lambda` for
position `i`: the loop starts at `j = 1` against the stringified prefix
`sequence[:i]`. -/
def matchLength (sequence : List Symbol) (i : Nat) : Nat :=
  scanStep sequence (_stringify (sequence.take i)) i sequence.length
    sequence.length 1

/-- The accumulator `sum_lambda` of `_true_entropy`: starts at `1. + 2.` and
adds the recorded `j` of every interior position `i ∈ range(1, n - 1)`.  All
summands are positive integers, so the float accumulator is modelled exactly
by a natural number. -/
def sum_lambda (sequence : List Symbol) : Nat :=
  (List.range' 1 (sequence.length - 2)).foldl
    (fun acc i => acc + matchLength sequence i) 3

/-- Source `_true_entropy(sequence)`: `1. / sum_lambda * n * np.log2(n)`. -/
noncomputable def _true_entropy (sequence : List Symbol) : ℝ :=
  1 / (sum_lambda sequence : ℝ) * (sequence.length : ℝ) *
    Real.logb 2 (sequence.length : ℝ)

/-- Numpy `np.log2` on a natural-number count, valued in the extended reals:
`np.log2(0)` is `-inf`. -/
noncomputable def np_log2 (x : Nat) : EReal :=
  if x = 0 then ⊥ else ((Real.logb 2 (x : ℝ) : ℝ) : EReal)

/-- Source `_random_entropy_individual(traj)`: the number of distinct
`(lat, lng)` groups, then `np.log2` of it. -/
noncomputable def _random_entropy_individual (traj : List Symbol) : EReal :=
  np_log2 traj.dedup.length

/-- Scipy `stats.entropy(pk, base=2.0)`: the distribution is normalized by its
sum and the result is `-Σ p·log2 p`. -/
noncomputable def stats_entropy (pk : List ℝ) : ℝ :=
  - ((pk.map (fun p => p / pk.sum * Real.logb 2 (p / pk.sum))).sum)

/-- Source `_uncorrelated_entropy_individual(traj, normalize)`: Shannon entropy of
the per-distinct-location visit frequencies `len(group) / n`; with
`normalize`, divided by `log2(n_vals)` when the number `n_vals` of distinct
locations exceeds `1`, and set to `0.0` otherwise ("to avoid NaN"). -/
noncomputable def _uncorrelated_entropy_individual (traj : List Symbol)
    (normalize : Bool) : ℝ :=
  let entropy := stats_entropy
    (traj.dedup.map (fun x => (groupCount traj x : ℝ) / (traj.length : ℝ)))
  if normalize then
    if 1 < traj.dedup.length then
      entropy / Real.logb 2 (traj.dedup.length : ℝ)
    else 0
  else entropy

/-- Modelled from the spec: the claimed MatchLength of position `i` — the
minimal length `j ≥ 1` such that the symbol subsequence `sequence[i:i+j]` is
NOT a contiguous subsequence of the prefix `sequence[0:i]`; if no such
`j ≤ n - i` exists, the end-of-sequence sentinel `(n - i) + 1`. -/
def specMatchLength (sequence : List Symbol) (i : Nat) : Nat :=
  ((List.range' 1 (sequence.length - i)).find?
    (fun j => ! decide (((sequence.drop i).take j) <:+: sequence.take i))).getD
    (sequence.length - i + 1)

/-- The first candidate length `j ∈ [1, n - i - 1]` whose string encoding does
not occur in the encoded prefix, if any: what the loop of `_true_entropy`
actually searches for (it never tests the length-`(n - i)` candidate). -/
def firstNonOccurrence (sequence : List Symbol) (i : Nat) : Option Nat :=
  (List.range' 1 (sequence.length - i - 1)).find?
    (fun j => ! strContains (_stringify ((sequence.drop i).take j))
      (_stringify (sequence.take i)))

/-- An index-based symbol-level matcher with the same loop and boundary
behaviour as the code, but testing occurrence of the candidate as a contiguous
run of whole symbols instead of textual containment. -/
def symMatchLength (sequence : List Symbol) (i : Nat) : Nat :=
  (((List.range' 1 (sequence.length - i - 1)).find?
    (fun j => ! decide (((sequence.drop i).take j) <:+: sequence.take i))).getD
    (sequence.length - i + 1))

/-- Modelled from the spec: the Shannon entropy `-Σ p_j log2 p_j` of the
empirical visitation frequencies over the distinct symbols. -/
noncomputable def shannonEntropy (seq : List Symbol) : ℝ :=
  - ∑ x ∈ seq.toFinset,
      ((groupCount seq x : ℝ) / (seq.length : ℝ)) *
        Real.logb 2 ((groupCount seq x : ℝ) / (seq.length : ℝ))

/-- Symbol with the single field `"a"`. -/
def symA : Symbol := [['a']]

/-- Symbol with the single field `"b"`. -/
def symB : Symbol := [['b']]

/-- Symbol with the single field `"c"`. -/
def symC : Symbol := [['c']]

/-- Symbol with the single field `"d"`. -/
def symD : Symbol := [['d']]

/-- Symbol with the single field `"e"`. -/
def symE : Symbol := [['e']]

/-- Symbol with the single field `"f"`. -/
def symF : Symbol := [['f']]

/-- Symbol with fields `"12"` and `"0"`: stringified form `"12_0"`. -/
def symX : Symbol := [['1', '2'], ['0']]

/-- Symbol with fields `"2"` and `"0"`: stringified form `"2_0"`. -/
def symY : Symbol := [['2'], ['0']]

theorem le_scanStep (sequence : List Symbol) (S : List Char) (i n : Nat) :
    ∀ fuel j, j ≤ scanStep sequence S i n fuel j
  | 0, j => le_refl j
  | fuel + 1, j => by
    simp only [scanStep]
    split
    · split
      · omega
      · exact le_trans (by omega) (le_scanStep sequence S i n fuel (j + 1))
    · exact le_refl j

theorem scanStep_eq_find (sequence : List Symbol) (S : List Char) (i n : Nat) :
    ∀ (fuel j : Nat), i + j < n → n - i - j ≤ fuel →
      scanStep sequence S i n fuel j =
        ((List.range' j (n - i - j)).find?
          (fun k => ! strContains (_stringify ((sequence.drop i).take k)) S)).getD
          (n - i + 1)
  | 0, _, hij, hfuel => by omega
  | fuel + 1, j, hij, hfuel => by
    have hrange : n - i - j = (n - i - j - 1) + 1 := by omega
    simp only [scanStep]
    by_cases hc : strContains (_stringify ((sequence.drop i).take j)) S
    · rw [if_pos hc]
      by_cases hn : i + (j + 1) = n
      · rw [if_pos hn]
        have h1 : n - i - j = 1 := by omega
        rw [h1, List.range'_one, List.find?_cons_of_neg, List.find?_nil,
          Option.getD_none]
        · omega
        · simp [hc]
      · rw [if_neg hn]
        have hij' : i + (j + 1) < n := by omega
        have hfuel' : n - i - (j + 1) ≤ fuel := by omega
        rw [scanStep_eq_find sequence S i n fuel (j + 1) hij' hfuel']
        rw [hrange, List.range'_succ, List.find?_cons_of_neg]
        · have h2 : n - i - j - 1 = n - i - (j + 1) := by omega
          rw [h2]
        · simp [hc]
    · rw [if_neg hc]
      rw [hrange, List.range'_succ, List.find?_cons_of_pos]
      · rw [Option.getD_some]
      · simp [hc]

theorem matchLength_eq_find (sequence : List Symbol) (i : Nat)
    (h1 : 1 ≤ i) (h2 : i + 2 ≤ sequence.length) :
    matchLength sequence i =
      (firstNonOccurrence sequence i).getD (sequence.length - i + 1) := by
  have hij : i + 1 < sequence.length := by omega
  have hfuel : sequence.length - i - 1 ≤ sequence.length := by omega
  rw [matchLength, scanStep_eq_find sequence (_stringify (sequence.take i))
    i sequence.length sequence.length 1 hij hfuel, firstNonOccurrence]

theorem one_le_matchLength (sequence : List Symbol) (i : Nat) :
    1 ≤ matchLength sequence i :=
  le_scanStep sequence (_stringify (sequence.take i)) i sequence.length
    sequence.length 1

theorem foldl_add_map (f : Nat → Nat) :
    ∀ (l : List Nat) (init : Nat),
      l.foldl (fun acc i => acc + f i) init = init + (l.map f).sum
  | [], init => by simp
  | a :: t, init => by
    simp only [List.foldl_cons, List.map_cons, List.sum_cons]
    rw [foldl_add_map f t (init + f a)]
    omega

theorem sum_lambda_eq (sequence : List Symbol) :
    sum_lambda sequence =
      3 + ((List.range' 1 (sequence.length - 2)).map
        (matchLength sequence)).sum :=
  foldl_add_map (matchLength sequence) _ 3

theorem three_le_sum_lambda (sequence : List Symbol) : 3 ≤ sum_lambda sequence := by
  rw [sum_lambda_eq]; omega

theorem length_le_sum_lambda (sequence : List Symbol) :
    sequence.length ≤ sum_lambda sequence := by
  rw [sum_lambda_eq]
  have hpt : ∀ i ∈ List.range' 1 (sequence.length - 2),
      (fun _ => 1) i ≤ matchLength sequence i :=
    fun i _ => one_le_matchLength sequence i
  have hle := List.sum_le_sum hpt
  have hconst : ((List.range' 1 (sequence.length - 2)).map (fun _ => 1)).sum =
      sequence.length - 2 := by
    simp [List.map_const']
  omega

theorem joinSep_append (sep : Char) :
    ∀ (xs ys : List (List Char)), xs ≠ [] → ys ≠ [] →
      joinSep sep (xs ++ ys) = joinSep sep xs ++ sep :: joinSep sep ys
  | [], _, hx, _ => absurd rfl hx
  | [x], y :: ys, _, _ => by
    simp only [List.singleton_append, joinSep]
  | x :: x2 :: xs, ys, _, hy => by
    have ih := joinSep_append sep (x2 :: xs) ys (by simp) hy
    simp only [List.cons_append, joinSep, List.append_eq] at ih ⊢
    rw [ih, List.append_assoc]
    simp

theorem stringifyMonotone {cand pref : List Symbol} (h : cand <:+: pref) :
    _stringify cand <:+: _stringify pref := by
  obtain ⟨s, t, hst⟩ := h
  subst hst
  cases cand with
  | nil => exact List.nil_infix
  | cons c cs =>
    simp only [_stringify, List.map_append]
    set S := s.map (joinSep '_') with hS
    set C := (c :: cs).map (joinSep '_') with hC
    set T := t.map (joinSep '_') with hT
    have hCne : C ≠ [] := by simp [hC]
    rcases s with _ | ⟨s0, s00⟩
    · rcases t with _ | ⟨t0, t00⟩
      · simp [hS, hT, List.infix_refl]
      · have hTne : T ≠ [] := by simp [hT]
        rw [show S = [] from by simp [hS], List.nil_append,
          joinSep_append '|' C T hCne hTne]
        exact ⟨[], '|' :: joinSep '|' T, by simp⟩
    · have hSne : S ≠ [] := by simp [hS]
      rcases t with _ | ⟨t0, t00⟩
      · rw [show T = [] from by simp [hT], List.append_nil,
          joinSep_append '|' S C hSne hCne]
        exact ⟨joinSep '|' S ++ ['|'], [], by simp⟩
      · have hTne : T ≠ [] := by simp [hT]
        rw [List.append_assoc,
          joinSep_append '|' S (C ++ T) hSne (by simp [hCne]),
          joinSep_append '|' C T hCne hTne]
        exact ⟨joinSep '|' S ++ ['|'], '|' :: joinSep '|' T, by simp⟩

theorem sum_map_div (r : ℝ) : ∀ l : List ℝ, (l.map (fun x => x / r)).sum = l.sum / r
  | [] => by simp
  | a :: t => by simp [sum_map_div r t, add_div]

theorem count_cast_sum (seq : List Symbol) :
    (seq.dedup.map fun x => ((groupCount seq x : ℕ) : ℝ)).sum = (seq.length : ℝ) := by
  rw [show (fun x => ((groupCount seq x : ℕ) : ℝ)) =
      (fun c : ℕ => (c : ℝ)) ∘ (fun x => groupCount seq x) from rfl]
  rw [← List.map_map, ← Nat.cast_list_sum]
  norm_cast
  exact List.sum_map_count_dedup_eq_length seq

theorem probs_sum (seq : List Symbol) (h : seq ≠ []) :
    (seq.dedup.map fun x => (groupCount seq x : ℝ) / (seq.length : ℝ)).sum = 1 := by
  have hn : ((seq.length : ℕ) : ℝ) ≠ 0 := by
    have := List.length_pos.mpr h
    positivity
  rw [show (fun x => (groupCount seq x : ℝ) / (seq.length : ℝ)) =
      (fun c : ℝ => c / (seq.length : ℝ)) ∘ (fun x => ((groupCount seq x : ℕ) : ℝ)) from rfl]
  rw [← List.map_map, sum_map_div, count_cast_sum, div_self hn]

theorem dedup_map_sum (l : List Symbol) (f : Symbol → ℝ) :
    (l.dedup.map f).sum = ∑ x ∈ l.toFinset, f x := by
  simp [Finset.sum, List.toFinset, Multiset.toFinset]

theorem stats_entropy_probs (seq : List Symbol) (h : seq ≠ []) :
    stats_entropy (seq.dedup.map fun x => (groupCount seq x : ℝ) / (seq.length : ℝ)) =
      shannonEntropy seq := by
  unfold stats_entropy shannonEntropy
  rw [probs_sum seq h]
  simp only [div_one, List.map_map]
  rw [dedup_map_sum]
  simp [Function.comp]

theorem uncorrelated_false_eq (seq : List Symbol) (h : seq ≠ []) :
    _uncorrelated_entropy_individual seq false = shannonEntropy seq := by
  simp only [_uncorrelated_entropy_individual, Bool.false_eq_true, if_false]
  exact stats_entropy_probs seq h

theorem uncorrelated_true_eq (seq : List Symbol) (h : seq ≠ []) :
    _uncorrelated_entropy_individual seq true =
      (if 1 < seq.dedup.length then
        shannonEntropy seq / Real.logb 2 (seq.dedup.length : ℝ) else 0) := by
  simp only [_uncorrelated_entropy_individual, if_true]
  rw [stats_entropy_probs seq h]

theorem shannon_nonneg (seq : List Symbol) : 0 ≤ shannonEntropy seq := by
  unfold shannonEntropy
  rw [neg_nonneg]
  apply Finset.sum_nonpos
  intro x hx
  have hmem : x ∈ seq := List.mem_toFinset.mp hx
  have hn : (0:ℝ) < (seq.length : ℝ) := by
    exact_mod_cast List.length_pos.mpr (List.ne_nil_of_mem hmem)
  have hc : 0 < groupCount seq x :=
    (@List.count_pos_iff Symbol instBEqOfDecidableEq inferInstance x seq).mpr hmem
  have hp0 : (0:ℝ) < (groupCount seq x : ℝ) / (seq.length : ℝ) := by
    apply div_pos _ hn
    exact_mod_cast hc
  have hp1 : (groupCount seq x : ℝ) / (seq.length : ℝ) ≤ 1 := by
    rw [div_le_one hn]
    exact_mod_cast @List.count_le_length Symbol instBEqOfDecidableEq x seq
  exact mul_nonpos_of_nonneg_of_nonpos hp0.le
    (Real.logb_nonpos one_lt_two hp0.le hp1)

theorem shannon_le_logb_card (seq : List Symbol) (h : seq ≠ []) :
    shannonEntropy seq ≤ Real.logb 2 (seq.dedup.length : ℝ) := by
  have hn : (0:ℝ) < (seq.length : ℝ) := by
    exact_mod_cast List.length_pos.mpr h
  set p : Symbol → ℝ :=
    fun x => (groupCount seq x : ℝ) / (seq.length : ℝ) with hp
  have hp_pos : ∀ x ∈ seq.toFinset, 0 < p x := by
    intro x hx
    apply div_pos _ hn
    exact_mod_cast (@List.count_pos_iff Symbol instBEqOfDecidableEq
      inferInstance x seq).mpr (List.mem_toFinset.mp hx)
  have hsum : ∑ x ∈ seq.toFinset, p x = 1 := by
    rw [← dedup_map_sum]
    exact probs_sum seq h
  have hjensen := (strictConcaveOn_log_Ioi.concaveOn).le_map_sum
    (fun x hx => (hp_pos x hx).le) hsum
    (fun x hx => Set.mem_Ioi.mpr (one_div_pos.mpr (hp_pos x hx)))
  have hRHS : (∑ x ∈ seq.toFinset, p x • (1 / p x)) =
      ((seq.dedup.length : ℕ) : ℝ) := by
    rw [Finset.sum_congr rfl fun x hx => by
      rw [smul_eq_mul, mul_one_div_cancel (hp_pos x hx).ne']]
    simp [List.card_toFinset]
  have hLHS : (∑ x ∈ seq.toFinset, p x • Real.log (1 / p x)) =
      - ∑ x ∈ seq.toFinset, p x * Real.log (p x) := by
    rw [← Finset.sum_neg_distrib]
    refine Finset.sum_congr rfl fun x hx => ?_
    rw [smul_eq_mul, one_div, Real.log_inv, mul_neg]
  rw [hRHS, hLHS] at hjensen
  have hlog2 : (0:ℝ) < Real.log 2 := Real.log_pos one_lt_two
  have hshannon : shannonEntropy seq =
      (- ∑ x ∈ seq.toFinset, p x * Real.log (p x)) / Real.log 2 := by
    unfold shannonEntropy
    rw [neg_div, Finset.sum_div]
    refine congrArg Neg.neg (Finset.sum_congr rfl fun x hx => ?_)
    rw [← Real.log_div_log]
    ring
  rw [hshannon, ← Real.log_div_log]
  rw [div_le_div_iff_of_pos_right hlog2]
  exact hjensen

theorem stats_entropy_perm {pk qk : List ℝ} (h : pk.Perm qk) :
    stats_entropy pk = stats_entropy qk := by
  unfold stats_entropy
  rw [h.sum_eq, (h.map _).sum_eq]

theorem uncorrelated_perm {s t : List Symbol} (h : s.Perm t) (b : Bool) :
    _uncorrelated_entropy_individual s b = _uncorrelated_entropy_individual t b := by
  have hlen : s.length = t.length := h.length_eq
  have hfun : (fun x => (groupCount s x : ℝ) / (s.length : ℝ)) =
      (fun x => (groupCount t x : ℝ) / (t.length : ℝ)) := by
    funext x
    rw [show groupCount s x = groupCount t x from h.count_eq x, hlen]
  have hprobs : (s.dedup.map fun x => (groupCount s x : ℝ) / (s.length : ℝ)).Perm
      (t.dedup.map fun x => (groupCount t x : ℝ) / (t.length : ℝ)) := by
    rw [hfun]
    exact h.dedup.map _
  have hdlen : s.dedup.length = t.dedup.length := h.dedup.length_eq
  simp only [_uncorrelated_entropy_individual, stats_entropy_perm hprobs, hdlen]

theorem random_perm {s t : List Symbol} (h : s.Perm t) :
    _random_entropy_individual s = _random_entropy_individual t := by
  unfold _random_entropy_individual
  rw [h.dedup.length_eq]

/-- C1 counterexample: for the length-3 sequence `[a, a, b]` at interior
position `i = 1`, the scan adds the sentinel value `(n - i) + 1 = 3` although
`j = 2 ≤ n - i` already satisfies "the length-`j` substring starting at `i` is
not a substring of the prefix": the claimed condition for the sentinel
("only if no such `j ≤ n - i` exists") does not match the code. -/
theorem matchLength_sentinel_counterexample :
    matchLength [symA, symA, symB] 1 = 3 ∧
      specMatchLength [symA, symA, symB] 1 = 2 := by decide

/-- C1 (amended): for every sequence of length `n ≥ 3` and interior position
`1 ≤ i ≤ n - 2`, the recorded match length is the minimal `j ∈ [1, n - i - 1]`
whose string-encoded candidate `sequence[i:i+j]` does not occur in the encoded
prefix `sequence[0:i]`; if every candidate of length `≤ n - i - 1` occurs, the
value is fixed at `(n - i) + 1` — the length-`(n - i)` candidate itself is
never tested. -/
theorem matchLength_eq_firstNonOccurrence (sequence : List Symbol) (i : Nat)
    (h1 : 1 ≤ i) (h2 : i + 2 ≤ sequence.length) :
    matchLength sequence i =
      (firstNonOccurrence sequence i).getD (sequence.length - i + 1) :=
  matchLength_eq_find sequence i h1 h2

/-- Witness for the amended C1 theorem at `[a, b, c]`, `i = 1`. -/
theorem matchLength_eq_firstNonOccurrence_witness :
    1 ≤ 1 ∧ 1 + 2 ≤ [symA, symB, symC].length ∧
      matchLength [symA, symB, symC] 1 =
        (firstNonOccurrence [symA, symB, symC] 1).getD
          ([symA, symB, symC].length - 1 + 1) :=
  ⟨le_refl 1, by decide,
    matchLength_eq_firstNonOccurrence [symA, symB, symC] 1 (le_refl 1) (by decide)⟩

/-- C2 counterexample: the symbols with field tuples `("12", "0")` and
`("2", "0")` stringify to `"12_0"` and `"2_0"`; the string-based test reports
the latter as occurring inside the former although there is no symbol-level
occurrence, and on `[("12","0"), ("2","0"), ("a")]` the computed match length
at `i = 1` is `3` while an index-based symbol-level matcher yields `1`: the
encoding is not collision-free. -/
theorem stringify_collision_counterexample :
    strContains (_stringify [symY]) (_stringify [symX]) = true ∧
      ¬ [symY] <:+: [symX] ∧
      matchLength [symX, symY, symA] 1 = 3 ∧
      symMatchLength [symX, symY, symA] 1 = 1 := by decide

/-- C2 (amended): the encoding has no false negatives — whenever the candidate
occurs in the prefix as a contiguous run of whole symbols, the string-based
containment test reports an occurrence — but it is not collision-free, so the
converse fails and computed match lengths can exceed the symbol-level ones. -/
theorem stringify_no_false_negative (cand pre : List Symbol)
    (h : cand <:+: pre) :
    strContains (_stringify cand) (_stringify pre) = true :=
  decide_eq_true (stringifyMonotone h)

/-- Witness for the amended C2 theorem: `[b, a]` contains `[a]`. -/
theorem stringify_no_false_negative_witness :
    [symA] <:+: [symB, symA] ∧
      strContains (_stringify [symA]) (_stringify [symB, symA]) = true :=
  ⟨by decide, stringify_no_false_negative [symA] [symB, symA] (by decide)⟩

/-- C3: for every sequence of length `n ≥ 1`, the real-entropy estimator
returns `n·log2 n` divided by `3` plus the sum of the interior match lengths;
the interior index list is duplicate-free and holds exactly the positions
`1 … n - 2`, so each interior match length is counted exactly once. -/
theorem true_entropy_formula (seq : List Symbol) (_h : 1 ≤ seq.length) :
    _true_entropy seq =
      (seq.length : ℝ) * Real.logb 2 (seq.length : ℝ) /
        (3 + (((List.range' 1 (seq.length - 2)).map (matchLength seq)).sum : ℝ)) ∧
      (List.range' 1 (seq.length - 2)).Nodup ∧
      (∀ i : ℕ, i ∈ List.range' 1 (seq.length - 2) ↔ 1 ≤ i ∧ i ≤ seq.length - 2) := by
  refine ⟨?_, List.nodup_range' 1 _ 1 (by norm_num), fun i => ?_⟩
  · unfold _true_entropy
    rw [sum_lambda_eq]
    push_cast
    ring
  · rw [List.mem_range'_1]
    omega

/-- Witness for the C3 theorem at the one-element sequence `[a]`. -/
theorem true_entropy_formula_witness :
    1 ≤ [symA].length ∧
      (_true_entropy [symA] =
        ([symA].length : ℝ) * Real.logb 2 ([symA].length : ℝ) /
          (3 + (((List.range' 1 ([symA].length - 2)).map (matchLength [symA])).sum : ℝ)) ∧
        (List.range' 1 ([symA].length - 2)).Nodup ∧
        (∀ i : ℕ, i ∈ List.range' 1 ([symA].length - 2) ↔
          1 ≤ i ∧ i ≤ [symA].length - 2)) :=
  ⟨by decide, true_entropy_formula [symA] (by decide)⟩

/-- C4 counterexample: the code has no empty-input guard and no
`EmptyInputError`; on a length-0 sequence the random-entropy estimator
evaluates `np.log2(0)` and returns `-∞` instead of raising. -/
theorem random_entropy_empty_counterexample :
    _random_entropy_individual ([] : List Symbol) = ⊥ := by
  simp [_random_entropy_individual, np_log2]

/-- C4 (amended): no entry point rejects a length-0 sequence; the
random-entropy estimator applied to any length-0 sequence returns
`np.log2(0) = -∞` rather than raising an `EmptyInputError`. -/
theorem random_entropy_empty (seq : List Symbol) (h : seq.length = 0) :
    _random_entropy_individual seq = ⊥ := by
  rw [List.length_eq_zero.mp h]
  simp [_random_entropy_individual, np_log2]

/-- Witness for the amended C4 theorem at the empty sequence. -/
theorem random_entropy_empty_witness :
    ([] : List Symbol).length = 0 ∧
      _random_entropy_individual ([] : List Symbol) = ⊥ :=
  ⟨rfl, random_entropy_empty [] rfl⟩

/-- C5: every length-1 sequence has real entropy exactly 0 and random entropy
exactly 0, and every length-2 sequence has real entropy exactly
`2·log2 2 / 3 = 2/3`, regardless of the symbols it contains. -/
theorem entropy_small_sequences (seq : List Symbol) :
    (seq.length = 1 →
        _true_entropy seq = 0 ∧ _random_entropy_individual seq = 0) ∧
      (seq.length = 2 → _true_entropy seq = 2 / 3) := by
  constructor
  · intro h1
    refine ⟨?_, ?_⟩
    · unfold _true_entropy
      rw [h1]
      simp
    · obtain ⟨a, rfl⟩ := List.length_eq_one.mp h1
      simp [_random_entropy_individual, np_log2]
  · intro h2
    have hs : sum_lambda seq = 3 := by
      rw [sum_lambda_eq, h2]
      simp
    unfold _true_entropy
    rw [hs, h2]
    push_cast
    rw [Real.logb_self_eq_one one_lt_two]
    norm_num

/-- Witness for the C5 theorem at `[a]` and `[a, b]`. -/
theorem entropy_small_sequences_witness :
    (_true_entropy [symA] = 0 ∧ _random_entropy_individual [symA] = 0) ∧
      _true_entropy [symA, symB] = 2 / 3 :=
  ⟨(entropy_small_sequences [symA]).1 rfl,
    (entropy_small_sequences [symA, symB]).2 rfl⟩

/-- C6: every interior match length is at least 1, so `sum_lambda` is at least
`3` and at least `n`, and the division in `_true_entropy` never divides by
zero. -/
theorem sum_lambda_safe (seq : List Symbol) (_h : 1 ≤ seq.length) :
    (∀ i ∈ List.range' 1 (seq.length - 2), 1 ≤ matchLength seq i) ∧
      3 ≤ sum_lambda seq ∧ seq.length ≤ sum_lambda seq ∧
      (sum_lambda seq : ℝ) ≠ 0 := by
  refine ⟨fun i _ => one_le_matchLength seq i, three_le_sum_lambda seq,
    length_le_sum_lambda seq, ?_⟩
  have h3 := three_le_sum_lambda seq
  have hne : sum_lambda seq ≠ 0 := by omega
  exact_mod_cast hne

/-- Witness for the C6 theorem at `[a, b, a]`. -/
theorem sum_lambda_safe_witness :
    1 ≤ [symA, symB, symA].length ∧
      ((∀ i ∈ List.range' 1 ([symA, symB, symA].length - 2),
          1 ≤ matchLength [symA, symB, symA] i) ∧
        3 ≤ sum_lambda [symA, symB, symA] ∧
        [symA, symB, symA].length ≤ sum_lambda [symA, symB, symA] ∧
        (sum_lambda [symA, symB, symA] : ℝ) ≠ 0) :=
  ⟨by decide, sum_lambda_safe [symA, symB, symA] (by decide)⟩

/-- C7 counterexample: in `[a, b, a, b, a, b]` the scan records match lengths
`3` and `4` at interior positions `2` and `3`, so the interior match lengths
are not all `≤ 2` as claimed. -/
theorem abab_matchLength_counterexample :
    matchLength [symA, symB, symA, symB, symA, symB] 2 = 3 ∧
      matchLength [symA, symB, symA, symB, symA, symB] 3 = 4 := by decide

/-- C7 (amended): the interior match lengths of `[a, b, a, b, a, b]` are
`[1, 3, 4, 3]` (not all `≤ 2`), those of the all-distinct
`[a, b, c, d, e, f]` are `[1, 1, 1, 1]` (not close to `n - i`), and the real
entropy rate of the repetitive sequence is strictly smaller than that of the
all-distinct one, as claimed. -/
theorem abab_entropy_lt_distinct :
    (List.range' 1 4).map (matchLength [symA, symB, symA, symB, symA, symB]) =
        [1, 3, 4, 3] ∧
      (List.range' 1 4).map (matchLength [symA, symB, symC, symD, symE, symF]) =
        [1, 1, 1, 1] ∧
      _true_entropy [symA, symB, symA, symB, symA, symB] <
        _true_entropy [symA, symB, symC, symD, symE, symF] := by
  refine ⟨by decide, by decide, ?_⟩
  have e1 : _true_entropy [symA, symB, symA, symB, symA, symB] =
      1 / (14:ℝ) * 6 * Real.logb 2 6 := by
    unfold _true_entropy
    norm_num [show sum_lambda [symA, symB, symA, symB, symA, symB] = 14 from
      by decide]
  have e2 : _true_entropy [symA, symB, symC, symD, symE, symF] =
      1 / (7:ℝ) * 6 * Real.logb 2 6 := by
    unfold _true_entropy
    norm_num [show sum_lambda [symA, symB, symC, symD, symE, symF] = 7 from
      by decide]
  have hL : (0:ℝ) < Real.logb 2 6 := Real.logb_pos one_lt_two (by norm_num)
  rw [e1, e2]
  nlinarith [hL]

/-- C8: for every non-empty sequence, the uncorrelated-entropy estimator
returns the base-2 Shannon entropy of the empirical visitation frequencies;
with normalization requested it divides by `log2 N` when the number `N` of
distinct symbols exceeds 1, and returns exactly 0 when `N ≤ 1`. -/
theorem uncorrelated_entropy_spec (seq : List Symbol) (h : seq ≠ []) :
    _uncorrelated_entropy_individual seq false = shannonEntropy seq ∧
      _uncorrelated_entropy_individual seq true =
        (if 1 < seq.dedup.length then
          shannonEntropy seq / Real.logb 2 (seq.dedup.length : ℝ) else 0) :=
  ⟨uncorrelated_false_eq seq h, uncorrelated_true_eq seq h⟩

/-- Witness for the C8 theorem at `[a, b]`. -/
theorem uncorrelated_entropy_spec_witness :
    [symA, symB] ≠ ([] : List Symbol) ∧
      (_uncorrelated_entropy_individual [symA, symB] false =
          shannonEntropy [symA, symB] ∧
        _uncorrelated_entropy_individual [symA, symB] true =
          (if 1 < [symA, symB].dedup.length then
            shannonEntropy [symA, symB] /
              Real.logb 2 ([symA, symB].dedup.length : ℝ)
          else 0)) :=
  ⟨by decide, uncorrelated_entropy_spec [symA, symB] (by decide)⟩

/-- C9: for every non-empty sequence the normalized uncorrelated entropy lies
in the closed interval `[0, 1]`: the Shannon entropy of the empirical
frequencies never exceeds `log2` of the number of distinct symbols. -/
theorem normalized_uncorrelated_in_unit_interval (seq : List Symbol)
    (h : seq ≠ []) :
    0 ≤ _uncorrelated_entropy_individual seq true ∧
      _uncorrelated_entropy_individual seq true ≤ 1 := by
  rw [uncorrelated_true_eq seq h]
  by_cases hN : 1 < seq.dedup.length
  · rw [if_pos hN]
    have hlogN : (0:ℝ) < Real.logb 2 (seq.dedup.length : ℝ) :=
      Real.logb_pos one_lt_two (by exact_mod_cast hN)
    constructor
    · exact div_nonneg (shannon_nonneg seq) hlogN.le
    · rw [div_le_one hlogN]
      exact shannon_le_logb_card seq h
  · rw [if_neg hN]
    norm_num

/-- Witness for the C9 theorem at `[a]`. -/
theorem normalized_uncorrelated_in_unit_interval_witness :
    [symA] ≠ ([] : List Symbol) ∧
      (0 ≤ _uncorrelated_entropy_individual [symA] true ∧
        _uncorrelated_entropy_individual [symA] true ≤ 1) :=
  ⟨by decide, normalized_uncorrelated_in_unit_interval [symA] (by decide)⟩

/-- C10: the random- and uncorrelated-entropy estimators are invariant under
every permutation of the visits — they depend only on the distinct locations
and their visit counts — while the real-entropy estimator is not
permutation-invariant. -/
theorem order_invariance :
    (∀ (s t : List Symbol), s.Perm t →
        _random_entropy_individual s = _random_entropy_individual t ∧
          ∀ b : Bool, _uncorrelated_entropy_individual s b =
            _uncorrelated_entropy_individual t b) ∧
      ¬ (∀ (s t : List Symbol), s.Perm t →
          _true_entropy s = _true_entropy t) := by
  constructor
  · exact fun s t h => ⟨random_perm h, fun b => uncorrelated_perm h b⟩
  · intro hall
    have heq := hall [symA, symA, symB] [symA, symB, symA] (by decide)
    have e1 : _true_entropy [symA, symA, symB] =
        1 / (6:ℝ) * 3 * Real.logb 2 3 := by
      unfold _true_entropy
      norm_num [show sum_lambda [symA, symA, symB] = 6 from by decide]
    have e2 : _true_entropy [symA, symB, symA] =
        1 / (4:ℝ) * 3 * Real.logb 2 3 := by
      unfold _true_entropy
      norm_num [show sum_lambda [symA, symB, symA] = 4 from by decide]
    have hL : (0:ℝ) < Real.logb 2 3 := Real.logb_pos one_lt_two (by norm_num)
    rw [e1, e2] at heq
    nlinarith [hL, heq]

/-- Witness for the C10 theorem at the swap permutation of `[a, b]`. -/
theorem order_invariance_witness :
    _random_entropy_individual [symA, symB] =
        _random_entropy_individual [symB, symA] ∧
      _uncorrelated_entropy_individual [symA, symB] true =
        _uncorrelated_entropy_individual [symB, symA] true :=
  ⟨(order_invariance.1 [symA, symB] [symB, symA] (by decide)).1,
    (order_invariance.1 [symA, symB] [symB, symA] (by decide)).2 true⟩

end skmob
